import Mathlib

/-!
Formal model of the Resume Merger backend (src/models/schemas.py,
src/services/parser.py, src/services/merger.py, src/main.py).

Modelling conventions:
* Python `str` is modelled as Lean `String` / `List Char`; Python string
  operations (`lower`, `strip`, `split`, `in`) are re-implemented over
  `List Char` by structural recursion so that every definition evaluates
  inside the kernel.  `lower`/`title` act on ASCII letters, which covers
  every string the code itself produces and compares.
* Python `float` is modelled as the exact rationals `ℚ` (the code only
  takes `max` of confidences and compares similarity scores, which is
  exact in both models).
* Python `int` is modelled as `Int`.
* `rapidfuzz.fuzz.ratio` is the normalized Indel similarity:
  `100 * (1 - dist/(m+n))` with `dist = m + n - 2 * LCS`, i.e.
  `200 * LCS / (m + n)` (and `100` for two empty strings).
* Python `dict` (insertion ordered, assignment replaces in place) is an
  association list with `dictInsert` replacing the first occurrence of a
  key or appending a fresh key at the end.
* `_merge_projects` mutates the `Project` objects stored in its map,
  which alias the caller's objects; this is made explicit by a store
  (`List Project`) addressed by indices (`Nat` refs).
-/

abbrev Chars := List Char

/-! ### Python string primitives (re-implemented structurally) -/

/-- Python `str.lower()` (ASCII letters). -/
def pyLower (s : String) : String := String.mk (s.data.map Char.toLower)

def dropWS (l : Chars) : Chars := l.dropWhile Char.isWhitespace

/-- Python `str.strip()`: remove leading and trailing whitespace. -/
def pyStrip (s : String) : String :=
  String.mk ((dropWS (dropWS s.data).reverse).reverse)

/-- Python `str.split(sep)` for a single-character separator. -/
def splitOnChar (c : Char) : Chars → List Chars
  | [] => [[]]
  | x :: xs =>
    let r := splitOnChar c xs
    if x = c then [] :: r
    else
      match r with
      | h :: t => (x :: h) :: t
      | [] => [[x]]

/-- Python `needle in hay` (substring containment). -/
def containsSub (needle hay : Chars) : Bool :=
  (List.range (hay.length + 1)).any (fun i => needle.isPrefixOf (hay.drop i))

/-- Python `str.title()` (ASCII): uppercase a letter that does not follow a
letter, lowercase every other letter. -/
def pyTitleGo : Bool → Chars → Chars
  | _, [] => []
  | prevAlpha, c :: cs =>
    if c.isAlpha then
      (if prevAlpha then c.toLower else c.toUpper) :: pyTitleGo true cs
    else c :: pyTitleGo false cs

def pyTitle (s : String) : String := String.mk (pyTitleGo false s.data)

/-- Python `x or default` for an optional string: `None` and the falsy
empty string both fall back to the default. -/
def pyOr (o : Option String) (d : String) : String :=
  match o with
  | none => d
  | some s => if s = "" then d else s

/-- Python truthiness of an optional string field. -/
def pyTruthy (o : Option String) : Bool :=
  match o with
  | none => false
  | some s => s ≠ ""

/-! ### Data model (src/models/schemas.py) -/

structure PersonalInfo where
  name : Option String
  email : Option String
  phone : Option String
  location : Option String
  linkedin : Option String
  github : Option String
  website : Option String
deriving DecidableEq

structure Skill where
  name : String
  category : Option String
  frequency : Int
  confidence : ℚ
deriving DecidableEq

structure Experience where
  title : String
  company : String
  location : Option String
  start_date : Option String
  end_date : Option String
  current : Bool
  description : List String
  technologies : List String
deriving DecidableEq

structure Education where
  degree : String
  institution : String
  location : Option String
  graduation_date : Option String
  gpa : Option String
deriving DecidableEq

structure Project where
  name : String
  description : String
  technologies : List String
  url : Option String
deriving DecidableEq

instance : Inhabited Project := ⟨⟨"", "", [], none⟩⟩

structure ParsedResume where
  personal_info : PersonalInfo
  summary : Option String
  skills : List Skill
  experience : List Experience
  education : List Education
  projects : List Project
  certifications : List String
  languages : List String
deriving DecidableEq

structure MergeSettings where
  include_sections : List String
  max_skills : Int
  sort_experience_by : String
  deduplicate_threshold : Int
deriving DecidableEq

/-! ### Python dict as an insertion-ordered association list -/

def dictLookup {α : Type} : List (String × α) → String → Option α
  | [], _ => none
  | (k', v) :: rest, k => if k' = k then some v else dictLookup rest k

/-- Python `d[k] = v`: replace the value of an existing key in place,
otherwise append the new key at the end. -/
def dictInsert {α : Type} : List (String × α) → String → α → List (String × α)
  | [], k, v => [(k, v)]
  | (k', v') :: rest, k, v =>
    if k' = k then (k, v) :: rest else (k', v') :: dictInsert rest k v

def dictKeys {α : Type} (m : List (String × α)) : List String := m.map (·.1)

def dictValues {α : Type} (m : List (String × α)) : List α := m.map (·.2)

/-! ### rapidfuzz: Indel-based ratio and process.extractOne -/

/-- Length of a longest common subsequence (classic recursion; the inner
walk over the second list keeps the recursion structural). -/
def lcsGo (a : Char) (f : Chars → Nat) : Chars → Nat
  | [] => 0
  | b :: bs => if a = b then f bs + 1 else max (lcsGo a f bs) (f (b :: bs))

def lcs : Chars → Chars → Nat
  | [], _ => 0
  | a :: as, ys => lcsGo a (lcs as) ys

/-- rapidfuzz `fuzz.ratio`: normalized Indel similarity scaled to 0–100,
which equals `200 * LCS / (m + n)`; two empty strings score 100. -/
def fuzzScore (a b : String) : ℚ :=
  if a.data.length + b.data.length = 0 then 100
  else mkRat (200 * lcs a.data b.data) (a.data.length + b.data.length)

/-- One step of the best-choice scan of `process.extractOne`: a choice is
considered only if its score reaches the cutoff, and a later choice
replaces the current best only on a strictly greater score (first of a
tie wins, matching insertion-order tie-break). -/
def extractStep (query : String) (cutoff : ℚ) (best : Option (String × ℚ))
    (k : String) : Option (String × ℚ) :=
  match best with
  | none => if cutoff ≤ fuzzScore query k then some (k, fuzzScore query k) else none
  | some p => if p.2 < fuzzScore query k then some (k, fuzzScore query k) else some p

/-- rapidfuzz `process.extractOne(query, choices, scorer=fuzz.ratio,
score_cutoff=cutoff)`. -/
def extractOne (query : String) (choices : List String) (cutoff : ℚ) :
    Option (String × ℚ) :=
  choices.foldl (extractStep query cutoff) none

/-! ### ResumeMerger._merge_skills (src/services/merger.py lines 54-104) -/

def normSkillKey (s : Skill) : String := pyStrip (pyLower s.name)

/-- The `matched_key` computed for one incoming skill: `None` when the map
is empty, otherwise the result of `process.extractOne` over the current
keys. -/
def matchedSkillKey (t : ℚ) (m : List (String × Skill)) (s : Skill) :
    Option String :=
  if m.isEmpty then none
  else (extractOne (normSkillKey s) (dictKeys m) t).map (·.1)

/-- The canonical key a mention ends up under: the fuzzy-matched existing
key if any, else its own normalized name. -/
def assignedSkillKey (t : ℚ) (m : List (String × Skill)) (s : Skill) : String :=
  (matchedSkillKey t m s).getD (normSkillKey s)

/-- The loop body of `_merge_skills`: fold a duplicate into its matched
aggregate (frequency + 1, confidence = max), else store a fresh aggregate
with frequency 1 under the normalized name.  The map value carries
exactly the fields of the Python dict literal, so it is a `Skill`. -/
def mergeSkillStep (t : ℚ) (m : List (String × Skill)) (s : Skill) :
    List (String × Skill) :=
  match matchedSkillKey t m s with
  | some k =>
    match dictLookup m k with
    | some d =>
      dictInsert m k ⟨d.name, d.category, d.frequency + 1, max d.confidence s.confidence⟩
    | none => m
  | none => dictInsert m (normSkillKey s) ⟨s.name, s.category, 1, s.confidence⟩

def skillFold (t : ℚ) (m : List (String × Skill)) (l : List Skill) :
    List (String × Skill) :=
  l.foldl (mergeSkillStep t) m

/-- The skill map after processing every skill of every resume; the two
nested `for` loops traverse exactly the flattened list. -/
def mergeSkillsMap (t : ℚ) (lists : List (List Skill)) : List (String × Skill) :=
  skillFold t [] lists.flatten

/-- The run trace: which canonical key each input mention (pre-dedup) was
assigned to, in processing order. -/
def skillTrace (t : ℚ) (m : List (String × Skill)) : List Skill → List (String × Skill)
  | [] => []
  | s :: rest => (assignedSkillKey t m s, s) :: skillTrace t (mergeSkillStep t m s) rest

/-- Strict comparison used by the final skill sort: descending by
(frequency, confidence). -/
def skillGtB (a b : Skill) : Bool :=
  decide (b.frequency < a.frequency) ||
    (a.frequency == b.frequency && decide (b.confidence < a.confidence))

/-- Stable insertion into a descending-sorted list: `a` goes in front of
the first element that is not strictly greater than it. -/
def insertByGt {α : Type} (gt : α → α → Bool) (a : α) : List α → List α
  | [] => [a]
  | b :: bs => if gt b a then b :: insertByGt gt a bs else a :: b :: bs

/-- Stable descending sort (same output as Python's stable `list.sort`
with `reverse=True` for a total preorder key). -/
def sortByGt {α : Type} (gt : α → α → Bool) (l : List α) : List α :=
  l.foldr (insertByGt gt) []

/-- `_merge_skills`: dedup into the map, then sort the aggregates
descending by (frequency, confidence). -/
def mergeSkills (t : ℚ) (lists : List (List Skill)) : List Skill :=
  sortByGt skillGtB (dictValues (mergeSkillsMap t lists))

/-! ### ResumeMerger._merge_experience (merger.py lines 106-126) -/

/-- The dedup signature
`f"{company.lower()}_{title.lower()}_{start_date or ''}"` (note: the
start_date is taken verbatim, not lower-cased; `None or ''` is `''`). -/
def expSignature (e : Experience) : String :=
  pyLower e.company ++ "_" ++ pyLower e.title ++ "_" ++ e.start_date.getD ""

/-- First-occurrence dedup over the flattened experience lists, threading
the `seen_signatures` set. -/
def dedupExpAux : List Experience → List String → List Experience
  | [], _ => []
  | e :: es, seen =>
    if expSignature e ∈ seen then dedupExpAux es seen
    else e :: dedupExpAux es (expSignature e :: seen)

/-- Sort key `(e.current, e.start_date or "0000")`; a missing start_date
and the falsy empty string both become `"0000"`. -/
def expKey (e : Experience) : Bool × String := (e.current, pyOr e.start_date "0000")

/-- Lexicographic strict comparison of char lists by code point (Python
string `<`). -/
def chLtB : Chars → Chars → Bool
  | [], [] => false
  | [], _ :: _ => true
  | _ :: _, [] => false
  | a :: as, b :: bs =>
    if a < b then true
    else if b < a then false
    else chLtB as bs

/-- Strict comparison of Python tuples `(bool, str)`:
`k₁ > k₂` with `False < True` and code-point string order. -/
def keyGtB (k₁ k₂ : Bool × String) : Bool :=
  (k₁.1 && !k₂.1) || ((k₁.1 == k₂.1) && chLtB k₂.2.data k₁.2.data)

def expGtB (a b : Experience) : Bool := keyGtB (expKey a) (expKey b)

/-- `_merge_experience`: first-occurrence dedup by signature, then a
stable descending sort by `(current, start_date or "0000")`. -/
def mergeExperience (expLists : List (List Experience)) : List Experience :=
  sortByGt expGtB (dedupExpAux expLists.flatten [])

/-! ### ResumeMerger._merge_education (merger.py lines 128-141) -/

def eduKey (e : Education) : String :=
  pyLower e.institution ++ "_" ++ pyLower e.degree

def dedupEduAux : List Education → List String → List Education
  | [], _ => []
  | e :: es, seen =>
    if eduKey e ∈ seen then dedupEduAux es seen
    else e :: dedupEduAux es (eduKey e :: seen)

def mergeEducation (eduLists : List (List Education)) : List Education :=
  dedupEduAux eduLists.flatten []

/-! ### ResumeMerger._merge_projects (merger.py lines 143-173)

The Python map stores references to the caller's `Project` objects and
mutates them in place when a duplicate is folded in.  The heap is made
explicit: a store `List Project` addressed by `Nat` refs; the map sends
canonical keys to refs, and folding a duplicate writes back into the
store at the matched ref. -/

structure ProjState where
  store : List Project
  pmap : List (String × Nat)
deriving DecidableEq

def normProjKey (p : Project) : String := pyStrip (pyLower p.name)

/-- First-occurrence dedup of a string list: deterministic model of
Python's `list(set(...))`, whose iteration order is
implementation-defined (hash-based); no claim depends on that order. -/
def dedupFirstAux : List String → List String → List String
  | [], _ => []
  | x :: xs, seen =>
    if x ∈ seen then dedupFirstAux xs seen
    else x :: dedupFirstAux xs (x :: seen)

/-- The `matched_key` computed for one incoming project: `None` when the
map is empty, otherwise the result of `process.extractOne` over the
current keys. -/
def matchedProjKey (t : ℚ) (st : ProjState) (p : Project) : Option String :=
  if st.pmap.isEmpty then none
  else (extractOne (normProjKey p) (dictKeys st.pmap) t).map (·.1)

/-- In-place mutation of the retained aggregate project: append the new
description when it differs (separated by " | "), replace technologies
with the union `list(set(existing + new))`. -/
def projMergeInto (ex proj : Project) : Project :=
  ⟨ex.name,
    if proj.description ≠ ex.description then ex.description ++ " | " ++ proj.description
    else ex.description,
    dedupFirstAux (ex.technologies ++ proj.technologies) [],
    ex.url⟩

/-- The loop body of `_merge_projects` on one project ref: on a fuzzy
match, mutate the stored first-occurrence project through its ref;
otherwise record the ref under its normalized name. -/
def mergeProjStep (t : ℚ) (st : ProjState) (r : Nat) : ProjState :=
  match matchedProjKey t st (st.store.getD r default) with
  | some k =>
    match dictLookup st.pmap k with
    | some er =>
      { st with store :=
          st.store.set er (projMergeInto (st.store.getD er default) (st.store.getD r default)) }
    | none => st
  | none =>
    { st with pmap := dictInsert st.pmap (normProjKey (st.store.getD r default)) r }

def projFold (t : ℚ) (st : ProjState) (rs : List Nat) : ProjState :=
  rs.foldl (mergeProjStep t) st

/-- `_merge_projects` over a store of caller-owned projects: returns the
final store (the post-call contents of the caller's objects) and the
refs of the merged projects in map order. -/
def mergeProjects (t : ℚ) (store : List Project) (projLists : List (List Nat)) :
    List Project × List Nat :=
  let st := projFold t ⟨store, []⟩ projLists.flatten
  (st.store, dictValues st.pmap)

/-- Ref lists addressing the flattened concatenation of the per-resume
project lists. -/
def projRefListsGo : Nat → List (List Project) → List (List Nat)
  | _, [] => []
  | off, l :: ls => (List.range l.length).map (· + off) :: projRefListsGo (off + l.length) ls

def projRefLists (lists : List (List Project)) : List (List Nat) :=
  projRefListsGo 0 lists

/-! ### ResumeMerger._merge_personal_info (merger.py lines 32-52) -/

/-- Keep the already-filled (truthy) value, else take the incoming value
when it is truthy (`if info.f and not merged.f`). -/
def pickField (cur new : Option String) : Option String :=
  if pyTruthy new && !pyTruthy cur then new else cur

def mergePersonalInfo (infos : List PersonalInfo) : PersonalInfo :=
  infos.foldl
    (fun acc i =>
      ⟨pickField acc.name i.name, pickField acc.email i.email,
        pickField acc.phone i.phone, pickField acc.location i.location,
        pickField acc.linkedin i.linkedin, pickField acc.github i.github,
        pickField acc.website i.website⟩)
    ⟨none, none, none, none, none, none, none⟩

/-! ### ResumeMerger.merge (merger.py lines 10-30) and the /api/merge
endpoint (main.py lines 92-106) -/

/-- Python `l[:k]` for an arbitrary integer bound. -/
def pySliceTo {α : Type} (k : Int) (l : List α) : List α :=
  if 0 ≤ k then l.take k.toNat else l.take ((l.length : Int) + k).toNat

/-- `ResumeMerger.merge`: merge every section, then truncate the skill
list only when `settings.max_skills` is truthy (non-zero) and exceeded. -/
def merge (resumes : List ParsedResume) (settings : MergeSettings) : ParsedResume :=
  let t : ℚ := (settings.deduplicate_threshold : ℚ)
  let skills0 := mergeSkills t (resumes.map (·.skills))
  let store := (resumes.map (·.projects)).flatten
  let pres := mergeProjects t store (projRefLists (resumes.map (·.projects)))
  let skills :=
    if settings.max_skills ≠ 0 ∧ settings.max_skills < (skills0.length : Int) then
      pySliceTo settings.max_skills skills0
    else skills0
  { personal_info := mergePersonalInfo (resumes.map (·.personal_info))
    summary := none
    skills := skills
    experience := mergeExperience (resumes.map (·.experience))
    education := mergeEducation (resumes.map (·.education))
    projects := pres.2.map (fun r => pres.1.getD r default)
    certifications := []
    languages := [] }

/-- The post-call contents of the caller-owned `Project` objects (the
project merger mutates them through the references it stores). -/
def mergeFinalStore (resumes : List ParsedResume) (settings : MergeSettings) :
    List Project :=
  (mergeProjects ((settings.deduplicate_threshold : ℚ))
    ((resumes.map (·.projects)).flatten)
    (projRefLists (resumes.map (·.projects)))).1

inductive MergeOutcome where
  | validationError (status : Nat) (detail : String)
  | ok (merged : ParsedResume)
deriving DecidableEq

/-- The `/api/merge` handler: fewer than 2 resumes is rejected with a
400 validation error before any merging happens. -/
def mergeResumesEndpoint (resumes : List ParsedResume) (settings : MergeSettings) :
    MergeOutcome :=
  if resumes.length < 2 then
    .validationError 400 "Need at least 2 resumes to merge"
  else
    .ok (merge resumes settings)

/-! ### ResumeParser (src/services/parser.py)

Python `re` patterns are compiled by hand into a small backtracking
matcher: a pattern denotes, for a text and a start position, the list of
candidate end positions in backtracking priority order (greedy pieces
yield longer ends first, alternations are tried in written order).
`re.search` then scans start positions from the left and returns the
first position with a non-empty candidate list, matched to its first
candidate end. -/

def RE := Chars → Nat → List Nat

/-- Single character from a class. -/
def reOne (p : Char → Bool) : RE := fun s i =>
  match s[i]? with
  | some c => if p c then [i + 1] else []
  | none => []

def reSeq (r₁ r₂ : RE) : RE := fun s i => (r₁ s i).flatMap (fun j => r₂ s j)

/-- Greedy `?`: try the piece first, then skipping it. -/
def reOpt (r : RE) : RE := fun s i => r s i ++ [i]

def runLen (p : Char → Bool) : Chars → Nat
  | [] => 0
  | c :: cs => if p c then runLen p cs + 1 else 0

/-- Greedy bounded/unbounded repetition `{lo,hi}` of a character class:
candidate ends from the longest feasible run down to `lo` characters. -/
def reRep (p : Char → Bool) (lo : Nat) (hi : Option Nat) : RE := fun s i =>
  let m0 := runLen p (s.drop i)
  let m := match hi with | some h => min m0 h | none => m0
  if m < lo then [] else (List.range (m - lo + 1)).map (fun d => i + m - d)

/-- Case-insensitive prefix test (ASCII folding, re.IGNORECASE). -/
def isPrefixCI : Chars → Chars → Bool
  | [], _ => true
  | _ :: _, [] => false
  | a :: as, b :: bs => a.toLower == b.toLower && isPrefixCI as bs

def reLitCI (pat : String) : RE := fun s i =>
  if isPrefixCI pat.data (s.drop i) then [i + pat.data.length] else []

/-- Python `\w` (ASCII model). -/
def isWordChar (c : Char) : Bool := c.isAlphanum || c = '_'

def wordAt (s : Chars) (i : Nat) : Bool :=
  match s[i]? with
  | some c => isWordChar c
  | none => false

/-- Python `\b`: word-character status changes at the position. -/
def reWordB : RE := fun s i =>
  let before := if i = 0 then false else wordAt s (i - 1)
  if before != wordAt s i then [i] else []

/-- Python `$` (no MULTILINE): end of text, or just before a final
newline. -/
def atDollar (s : Chars) (i : Nat) : Bool :=
  i == s.length || (i + 1 == s.length && s[i]? == some '\n')

/-- `re.search`: leftmost start position that matches, greedy-first end. -/
def reSearch (r : RE) (s : String) : Option (Nat × Nat) :=
  (List.range (s.data.length + 1)).findSome? (fun i =>
    ((r s.data i).head?).map (fun j => (i, j)))

def reSearchStr (r : RE) (s : String) : Option String :=
  (reSearch r s).map (fun p => String.mk ((s.data.drop p.1).take (p.2 - p.1)))

/-- Character classes of the contact-info patterns. -/
def emailLocalC (c : Char) : Bool :=
  c.isAlphanum || c = '.' || c = '_' || c = '%' || c = '+' || c = '-'

def emailDomainC (c : Char) : Bool := c.isAlphanum || c = '.' || c = '-'

/-- The class `[A-Z|a-z]` (it literally contains `|`). -/
def tldC (c : Char) : Bool := c.isAlpha || c = '|'

def wordDashC (c : Char) : Bool := isWordChar c || c = '-'

/-- `\b[A-Za-z0-9._%+-]+@[A-Za-z0-9.-]+\.[A-Z|a-z]{2,}\b` -/
def emailRE : RE :=
  reSeq reWordB (reSeq (reRep emailLocalC 1 none)
    (reSeq (reOne (· = '@')) (reSeq (reRep emailDomainC 1 none)
      (reSeq (reOne (· = '.')) (reSeq (reRep tldC 2 none) reWordB)))))

/-- `linkedin\.com/in/[\w-]+` with re.IGNORECASE. -/
def linkedinRE : RE := reSeq (reLitCI "linkedin.com/in/") (reRep wordDashC 1 none)

/-- `github\.com/[\w-]+` with re.IGNORECASE. -/
def githubRE : RE := reSeq (reLitCI "github.com/") (reRep wordDashC 1 none)

/-! Pattern compilation.  Python's `re` parser rejects a quantifier that
has no quantifiable item before it (at the start of a pattern, group or
branch, after an anchor such as `$`, `^` or `\b`, written `$?` etc.)
with `re.error("nothing to repeat")`, and a quantifier stacked on
another quantifier (beyond the single `?` laziness marker) with
`"multiple repeat"`.  This check runs when a pattern is first compiled,
i.e. inside `re.search`, before any text is examined.  The model below
tokenizes a pattern for quantifier-placement purposes and applies those
rules. -/

inductive ReItem where
  | nothing
  | atom
  | anchor
  | quant
  | lazyQuant
deriving DecidableEq

inductive ReTok where
  | openG
  | closeG
  | alt
  | anchorTok
  | quantTok (isQmark : Bool)
  | atomTok
  | errTok (msg : String)
deriving DecidableEq

inductive ScanMode where
  | top
  | inCls
  | inBrace
deriving DecidableEq

def lbraceC : Char := Char.ofNat 123

def rbraceC : Char := Char.ofNat 125

/-- Tokenize a pattern: an escape `\x` is one atom, a character set
`[...]` is one atom, `{...}` is a quantifier, `(`/`)`/`|` structure the
pattern, `$`/`^` are anchors, `?`/`*`/`+` are quantifiers, everything
else is a literal atom. -/
def reTokenize : ScanMode → Chars → List ReTok
  | .top, [] => []
  | .top, '\\' :: rest =>
    (match rest with
     | [] => [.errTok "bad escape (end of pattern)"]
     | _ :: rest2 => .atomTok :: reTokenize .top rest2)
  | .top, c :: rest =>
    if c = '(' then .openG :: reTokenize .top rest
    else if c = ')' then .closeG :: reTokenize .top rest
    else if c = '|' then .alt :: reTokenize .top rest
    else if c = '$' || c = '^' then .anchorTok :: reTokenize .top rest
    else if c = '?' || c = '*' || c = '+' then .quantTok (c = '?') :: reTokenize .top rest
    else if c = '[' then reTokenize .inCls rest
    else if c = lbraceC then reTokenize .inBrace rest
    else .atomTok :: reTokenize .top rest
  | .inCls, [] => [.errTok "unterminated character set"]
  | .inCls, '\\' :: rest =>
    (match rest with
     | [] => [.errTok "bad escape (end of pattern)"]
     | _ :: rest2 => reTokenize .inCls rest2)
  | .inCls, c :: rest =>
    if c = ']' then .atomTok :: reTokenize .top rest
    else reTokenize .inCls rest
  | .inBrace, [] => [.errTok "unterminated repeat bound"]
  | .inBrace, c :: rest =>
    if c = rbraceC then .quantTok false :: reTokenize .top rest
    else reTokenize .inBrace rest

def reCheckToks : List ReTok → ReItem → Except String Unit
  | [], _ => .ok ()
  | t :: ts, prev =>
    match t with
    | .openG => reCheckToks ts .nothing
    | .closeG => reCheckToks ts .atom
    | .alt => reCheckToks ts .nothing
    | .anchorTok => reCheckToks ts .anchor
    | .atomTok => reCheckToks ts .atom
    | .errTok m => .error m
    | .quantTok isQ =>
      match prev with
      | .nothing => .error "nothing to repeat"
      | .anchor => .error "nothing to repeat"
      | .atom => reCheckToks ts .quant
      | .quant => if isQ then reCheckToks ts .lazyQuant else .error "multiple repeat"
      | .lazyQuant => .error "multiple repeat"

def reCompileCheck (pat : String) : Except String Unit :=
  reCheckToks (reTokenize .top pat.data) .nothing

/-- The phone pattern of parser.py line 14, character for character:
`(\+?\d{1,3}[-.\s]?)?$$?\d{3}$$?[-.\s]?\d{3}[-.\s]?\d{4}`.  Where
parentheses around the area code were evidently intended (`\(?`/`\)?`),
the source text contains `$$?`: a `$` anchor followed by a quantified
`$` anchor. -/
def phonePatternSource : String :=
  "(\\+?\\d\x7b1,3\x7d[-.\\s]?)?$$?\\d\x7b3\x7d$$?[-.\\s]?\\d\x7b3\x7d[-.\\s]?\\d\x7b4\x7d"

/-! Section segmentation: the patterns
`(?:h₁|h₂|…)(.*?)(?:t₁|t₂|…|$)` with IGNORECASE and DOTALL.  The header
alternation is found at the leftmost position (alternatives in written
order); the lazy dotall capture ends at the first later position where a
terminator alternative or `$` fires. -/

def findAltCI (alts : List Chars) (s : Chars) : Option (Nat × Nat) :=
  (List.range (s.length + 1)).findSome? (fun i =>
    (alts.findSome? (fun a =>
      if isPrefixCI a (s.drop i) then some (i + a.length) else none)).map
      (fun e => (i, e)))

def tailHit (tails : List Chars) (s : Chars) (e : Nat) : Bool :=
  tails.any (fun a => isPrefixCI a (s.drop e)) || atDollar s e

def lazyEnd (tails : List Chars) (s : Chars) (h : Nat) : Option Nat :=
  (List.range (s.length + 1 - h)).findSome? (fun d =>
    if tailHit tails s (h + d) then some (h + d) else none)

def sectionText (heads tails : List String) (s : Chars) : Option Chars :=
  (findAltCI (heads.map (·.data)) s).bind (fun p =>
    (lazyEnd (tails.map (·.data)) s p.2).map
      (fun e => (s.drop p.2).take (e - p.2)))

/-! Record builders (parser.py `_parse_experience`, `_parse_education`,
`_parse_projects`, `_parse_skills`, `_parse_personal_info`). -/

/-- `re.search(r'\d{4}', line)`: four consecutive digits somewhere. -/
def hasYearRun (l : Chars) : Bool :=
  (List.range l.length).any (fun i => 4 ≤ runLen Char.isDigit (l.drop i))

def buildExpLine (line : String) : Experience :=
  let parts := (splitOnChar '|' line.data).map String.mk
  if 1 < parts.length then
    ⟨pyStrip (parts.getD 0 ""), pyStrip (parts.getD 1 ""),
      none, none, none, false, [], []⟩
  else
    ⟨line, "Unknown", none, none, none, false, [], []⟩

def buildExperiencesGo : List String → Option Experience → List Experience
  | [], cur =>
    (match cur with
     | some e => [e]
     | none => [])
  | l :: ls, cur =>
    let line := pyStrip l
    if line = "" then buildExperiencesGo ls cur
    else if hasYearRun line.data then
      match cur with
      | some e => e :: buildExperiencesGo ls (some (buildExpLine line))
      | none => buildExperiencesGo ls (some (buildExpLine line))
    else
      match cur with
      | some e =>
        buildExperiencesGo ls (some ⟨e.title, e.company, e.location, e.start_date,
          e.end_date, e.current, e.description ++ [line], e.technologies⟩)
      | none => buildExperiencesGo ls none

def buildExperiences (body : Chars) : List Experience :=
  buildExperiencesGo ((splitOnChar '\n' body).map String.mk) none

def parseExperience (text : String) : List Experience :=
  match sectionText ["experience", "work history", "employment"]
      ["education", "skills", "projects"] text.data with
  | some body => buildExperiences body
  | none =>
    match sectionText ["professional experience"] ["education", "skills"] text.data with
    | some body => buildExperiences body
    | none => []

def parseEducation (text : String) : List Education :=
  match sectionText ["education"] ["experience", "skills", "projects"] text.data with
  | some body =>
    ((splitOnChar '\n' body).map String.mk).filterMap (fun l =>
      let line := pyStrip l
      if line ≠ "" ∧ 10 < line.data.length then
        some ⟨line, "Parsed from resume", none, none, none⟩
      else none)
  | none => []

def buildProjLine (line : String) : Project :=
  let parts := (splitOnChar '-' line.data).map String.mk
  if 1 < parts.length then
    ⟨pyStrip (parts.getD 0 ""), pyStrip (parts.getD 1 ""), [], none⟩
  else ⟨line, line, [], none⟩

def parseProjects (text : String) : List Project :=
  match sectionText ["projects"] ["experience", "education", "skills"] text.data with
  | some body =>
    ((splitOnChar '\n' body).map String.mk).filterMap (fun l =>
      let line := pyStrip l
      if line ≠ "" ∧ 10 < line.data.length then some (buildProjLine line) else none)
  | none => []

def skillKeywords : List (String × List String) :=
  [("programming", ["python", "javascript", "java", "c++", "c#", "ruby", "php",
      "swift", "kotlin", "go", "rust", "typescript"]),
   ("frontend", ["react", "vue", "angular", "html", "css", "tailwind",
      "bootstrap", "sass", "next.js", "nuxt"]),
   ("backend", ["node.js", "express", "django", "flask", "fastapi", "spring",
      "rails", ".net"]),
   ("database", ["postgresql", "mysql", "mongodb", "redis", "sqlite",
      "dynamodb", "firebase"]),
   ("cloud", ["aws", "azure", "gcp", "vercel", "heroku", "docker", "kubernetes"]),
   ("tools", ["git", "jira", "figma", "postman", "jenkins", "github actions"])]

def parseSkills (text : String) : List Skill :=
  let lower := (pyLower text).data
  skillKeywords.flatMap (fun p =>
    p.2.filterMap (fun kw =>
      if containsSub kw.data lower then
        some ⟨pyTitle kw, some p.1, 1, mkRat 9 10⟩
      else none))

/-- `re.search(self.phone_pattern, text)`: Python compiles the pattern
first, and this pattern is rejected with `nothing to repeat` (the `?`
after the second `$` anchor), so the call raises `re.error` before
looking at the text.  The `ok` branch is unreachable for this pattern. -/
def extractPhone (_text : String) : Except String (Option String) :=
  match reCompileCheck phonePatternSource with
  | .error e => .error e
  | .ok _ => .ok none

/-- `_parse_personal_info`: name and email are computed, then the phone
search raises, so the function propagates the `re.error` for every
input. -/
def parsePersonalInfo (text : String) : Except String PersonalInfo :=
  let lines := (splitOnChar '\n' text.data).map String.mk
  match extractPhone text with
  | .error e => .error e
  | .ok phone =>
    .ok
      { name := lines.findSome? (fun l =>
          let t := pyStrip l
          if t = "" then none else some t)
        email := reSearchStr emailRE text
        phone := phone
        location := none
        linkedin := reSearchStr linkedinRE text
        github := reSearchStr githubRE text
        website := none }

/-- `ResumeParser.parse_resume` after text extraction (the PDF/DOCX
readers are out-of-scope I/O that supplies the raw text); an exception
from any section parser propagates. -/
def parseResumeText (text : String) : Except String ParsedResume :=
  match parsePersonalInfo text with
  | .error e => .error e
  | .ok pinfo =>
    .ok
      { personal_info := pinfo
        summary := none
        skills := parseSkills text
        experience := parseExperience text
        education := parseEducation text
        projects := parseProjects text
        certifications := []
        languages := [] }

/-- Statement-side bookkeeping over the run trace: how many input
mentions were assigned to canonical key `k`, and their confidences. -/
def traceCount (t : ℚ) (m : List (String × Skill)) (l : List Skill) (k : String) : Nat :=
  ((skillTrace t m l).filter (fun q => q.1 == k)).length

def traceConfs (t : ℚ) (m : List (String × Skill)) (l : List Skill) (k : String) : List ℚ :=
  ((skillTrace t m l).filter (fun q => q.1 == k)).map (fun q => q.2.confidence)

/-! ### Spec-side comparison definitions -/

/-- Spec-side definition (the words of the experience-dedup claim): the
(company, title, start_date) triple normalized to lowercase, a missing
start_date treated as the empty string. -/
def specExpTuple (e : Experience) : String × String × String :=
  (pyLower e.company, pyLower e.title, pyLower (e.start_date.getD ""))

/-- Spec-side definition (the words of the experience-order claim): the
current flag and the raw start_date string, with only a missing
start_date replaced by "0000". -/
def specExpKey (e : Experience) : Bool × String :=
  (e.current, e.start_date.getD "0000")

/-! ### Lemmas: association-list dictionaries -/

theorem dictLookup_dictInsert_self {α : Type} (m : List (String × α)) (k : String) (v : α) :
    dictLookup (dictInsert m k v) k = some v := by
  induction m with
  | nil => simp [dictInsert, dictLookup]
  | cons hd t ih =>
    obtain ⟨a, b⟩ := hd
    by_cases ha : a = k
    · subst ha
      simp [dictInsert, dictLookup]
    · simp [dictInsert, ha, dictLookup, ih]

theorem dictLookup_dictInsert_ne {α : Type} (m : List (String × α)) (k k' : String)
    (v : α) (h : k' ≠ k) :
    dictLookup (dictInsert m k v) k' = dictLookup m k' := by
  have h2 : k ≠ k' := Ne.symm h
  induction m with
  | nil => simp [dictInsert, dictLookup, h2]
  | cons hd t ih =>
    obtain ⟨a, b⟩ := hd
    by_cases ha : a = k
    · subst ha
      simp [dictInsert, dictLookup, h2]
    · by_cases ha' : a = k'
      · simp [dictInsert, ha, dictLookup, ha', h]
      · simp [dictInsert, ha, dictLookup, ha', ih]

theorem dictKeys_dictInsert_mem {α : Type} (m : List (String × α)) (k : String) (v : α)
    (h : k ∈ dictKeys m) : dictKeys (dictInsert m k v) = dictKeys m := by
  induction m with
  | nil => simp [dictKeys] at h
  | cons hd t ih =>
    obtain ⟨a, b⟩ := hd
    by_cases ha : a = k
    · subst ha
      simp [dictInsert, dictKeys]
    · have ht : k ∈ dictKeys t := by
        rcases List.mem_cons.mp h with hh | hh
        · exact absurd hh.symm ha
        · exact hh
      have ihh := ih ht
      simp only [dictInsert, ha, if_false, dictKeys, List.map_cons]
      rw [show List.map (fun x => x.1) (dictInsert t k v) = dictKeys (dictInsert t k v) from rfl,
        ihh]
      rfl

theorem dictInsert_append {α : Type} (m : List (String × α)) (k : String) (v : α)
    (h : k ∉ dictKeys m) : dictInsert m k v = m ++ [(k, v)] := by
  induction m with
  | nil => simp [dictInsert]
  | cons hd t ih =>
    obtain ⟨a, b⟩ := hd
    have ha : a ≠ k := by
      intro hh
      exact h (by simp [dictKeys, hh])
    have ht : k ∉ dictKeys t := by
      intro hh
      exact h (List.mem_cons_of_mem _ hh)
    simp [dictInsert, ha, ih ht]

theorem dictLookup_of_mem {α : Type} (m : List (String × α)) (p : String × α)
    (hp : p ∈ m) (hnd : (dictKeys m).Nodup) : dictLookup m p.1 = some p.2 := by
  induction m with
  | nil => simp at hp
  | cons hd t ih =>
    obtain ⟨a, b⟩ := hd
    have hcons := List.nodup_cons.mp (show (a :: dictKeys t).Nodup from hnd)
    rcases List.mem_cons.mp hp with h | h
    · subst h
      simp [dictLookup]
    · have hmem : p.1 ∈ dictKeys t := by
        show p.1 ∈ t.map (·.1)
        exact List.mem_map_of_mem _ h
      have hane : a ≠ p.1 := fun hh => hcons.1 (hh ▸ hmem)
      simp [dictLookup, hane, ih h hcons.2]

theorem dictKeys_nodup_dictInsert {α : Type} (m : List (String × α)) (k : String) (v : α)
    (hnd : (dictKeys m).Nodup) : (dictKeys (dictInsert m k v)).Nodup := by
  by_cases hk : k ∈ dictKeys m
  · rw [dictKeys_dictInsert_mem m k v hk]
    exact hnd
  · rw [dictInsert_append m k v hk]
    show (List.map (·.1) (m ++ [(k, v)])).Nodup
    rw [List.map_append]
    rw [List.nodup_append]
    refine ⟨hnd, List.nodup_singleton k, ?_⟩
    intro x hx hx'
    simp at hx'
    subst hx'
    exact hk hx

theorem dictLookup_mem {α : Type} (m : List (String × α)) (k : String) (v : α)
    (h : dictLookup m k = some v) : (k, v) ∈ m := by
  induction m with
  | nil => simp [dictLookup] at h
  | cons hd t ih =>
    obtain ⟨a, b⟩ := hd
    by_cases ha : a = k
    · subst ha
      simp [dictLookup] at h
      subst h
      exact List.mem_cons_self _ _
    · simp [dictLookup, ha] at h
      exact List.mem_cons_of_mem _ (ih h)

theorem dictLookup_isSome_of_mem_keys {α : Type} (m : List (String × α)) (k : String)
    (h : k ∈ dictKeys m) : (dictLookup m k).isSome := by
  induction m with
  | nil => simp [dictKeys] at h
  | cons hd t ih =>
    obtain ⟨a, b⟩ := hd
    by_cases ha : a = k
    · subst ha
      simp [dictLookup]
    · have ht : k ∈ dictKeys t := by
        rcases List.mem_cons.mp h with hh | hh
        · exact absurd hh.symm ha
        · exact hh
      simp [dictLookup, ha, ih ht]

/-! ### Lemmas: extractOne and the similarity score -/

theorem lcs_self (xs : Chars) : lcs xs xs = xs.length := by
  induction xs with
  | nil => rfl
  | cons a as ih => simp [lcs, lcsGo, ih]

theorem fuzzScore_self (a : String) : fuzzScore a a = 100 := by
  unfold fuzzScore
  rcases Nat.eq_zero_or_pos a.data.length with h | h
  · simp [h]
  · have hne : ¬(a.data.length + a.data.length = 0) := by omega
    have hq : ((a.data.length : ℚ)) ≠ 0 := by
      exact_mod_cast Nat.pos_iff_ne_zero.mp h
    have hden : ((a.data.length + a.data.length : Nat) : ℚ) ≠ 0 := by
      exact_mod_cast hne
    simp only [hne, if_false, lcs_self]
    rw [Rat.mkRat_eq_div, div_eq_iff hden]
    push_cast
    ring

theorem extractFold_isSome (q : String) (c : ℚ) (ks : List String) (acc : Option (String × ℚ))
    (h : acc.isSome) : (ks.foldl (extractStep q c) acc) |>.isSome := by
  induction ks generalizing acc with
  | nil => simpa using h
  | cons a ks ih =>
    have : (extractStep q c acc a).isSome := by
      obtain ⟨p, hp⟩ := Option.isSome_iff_exists.mp h
      subst hp
      by_cases hlt : p.2 < fuzzScore q a
      · simp [extractStep, hlt]
      · simp [extractStep, hlt]
    exact ih _ this

theorem extractOne_isSome_of (q : String) (c : ℚ) (ks : List String) (k : String)
    (hk : k ∈ ks) (hc : c ≤ fuzzScore q k) : (extractOne q ks c).isSome := by
  induction ks with
  | nil => simp at hk
  | cons a ks ih =>
    show (ks.foldl (extractStep q c) (extractStep q c none a)).isSome
    rcases List.mem_cons.mp hk with h | h
    · subst h
      have : (extractStep q c none k).isSome := by simp [extractStep, hc]
      exact extractFold_isSome q c ks _ this
    · cases hstep : extractStep q c none a with
      | none =>
        rw [show ks.foldl (extractStep q c) none = extractOne q ks c from rfl]
        exact ih h
      | some p =>
        exact extractFold_isSome q c ks _ (by simp [hstep])

theorem extractFold_key (q : String) (c : ℚ) (ks : List String) :
    ∀ (acc : Option (String × ℚ)) (p : String × ℚ),
      ks.foldl (extractStep q c) acc = some p → p.1 ∈ ks ∨ acc = some p := by
  induction ks with
  | nil =>
    intro acc p h
    simp at h
    right
    rw [h]
  | cons a ks ih =>
    intro acc p h
    rcases ih (extractStep q c acc a) p h with hin | heq
    · left
      exact List.mem_cons_of_mem _ hin
    · cases acc with
      | none =>
        by_cases hc' : c ≤ fuzzScore q a
        · simp [extractStep, hc'] at heq
          subst heq
          left
          simp
        · simp [extractStep, hc'] at heq
      | some p₀ =>
        by_cases hlt : p₀.2 < fuzzScore q a
        · simp [extractStep, hlt] at heq
          subst heq
          left
          simp
        · right
          simp [extractStep, hlt] at heq
          rw [heq]

theorem extractOne_some_mem (q : String) (c : ℚ) (ks : List String) (p : String × ℚ)
    (h : extractOne q ks c = some p) : p.1 ∈ ks := by
  rcases extractFold_key q c ks none p h with hin | heq
  · exact hin
  · simp at heq

theorem extractOne_none_not_mem (q : String) (c : ℚ) (ks : List String)
    (hc : c ≤ 100) (h : extractOne q ks c = none) : q ∉ ks := by
  intro hq
  have hs := extractOne_isSome_of q c ks q hq (by rw [fuzzScore_self]; exact hc)
  rw [h] at hs
  simp at hs


theorem assignedSkillKey_of_matched (t : ℚ) (m : List (String × Skill)) (s : Skill)
    (k : String) (h : matchedSkillKey t m s = some k) : assignedSkillKey t m s = k := by
  simp [assignedSkillKey, h]

theorem assignedSkillKey_of_new (t : ℚ) (m : List (String × Skill)) (s : Skill)
    (h : matchedSkillKey t m s = none) : assignedSkillKey t m s = normSkillKey s := by
  simp [assignedSkillKey, h]

theorem matchedSkillKey_mem (t : ℚ) (m : List (String × Skill)) (s : Skill) (k : String)
    (h : matchedSkillKey t m s = some k) : k ∈ dictKeys m := by
  unfold matchedSkillKey at h
  cases hm : m.isEmpty with
  | true => rw [hm] at h; simp at h
  | false =>
    rw [hm] at h
    simp only [Bool.false_eq_true, if_false] at h
    cases he : extractOne (normSkillKey s) (dictKeys m) t with
    | none => rw [he] at h; simp at h
    | some p =>
      rw [he] at h
      simp only [Option.map_some'] at h
      injection h with h
      rw [← h]
      exact extractOne_some_mem _ _ _ _ he

theorem matchedSkillKey_none_not_mem (t : ℚ) (m : List (String × Skill)) (s : Skill)
    (ht : t ≤ 100) (h : matchedSkillKey t m s = none) : normSkillKey s ∉ dictKeys m := by
  unfold matchedSkillKey at h
  cases hm : m.isEmpty with
  | true =>
    rw [List.isEmpty_iff] at hm
    subst hm
    simp [dictKeys]
  | false =>
    rw [hm] at h
    simp only [Bool.false_eq_true, if_false] at h
    cases he : extractOne (normSkillKey s) (dictKeys m) t with
    | none => exact extractOne_none_not_mem _ _ _ ht he
    | some p => rw [he] at h; simp at h

theorem dictLookup_eq_none {α : Type} (m : List (String × α)) (k : String)
    (h : k ∉ dictKeys m) : dictLookup m k = none := by
  cases hl : dictLookup m k with
  | none => rfl
  | some v =>
    exfalso
    apply h
    have hm := dictLookup_mem m k v hl
    show k ∈ m.map (·.1)
    exact List.mem_map_of_mem _ hm

theorem mergeSkillStep_matched (t : ℚ) (m : List (String × Skill)) (s : Skill)
    (k : String) (d : Skill) (hmk : matchedSkillKey t m s = some k)
    (hlk : dictLookup m k = some d) :
    mergeSkillStep t m s =
      dictInsert m k ⟨d.name, d.category, d.frequency + 1, max d.confidence s.confidence⟩ := by
  unfold mergeSkillStep
  rw [hmk]
  show (match dictLookup m k with
        | some d =>
          dictInsert m k ⟨d.name, d.category, d.frequency + 1, max d.confidence s.confidence⟩
        | none => m) = _
  rw [hlk]

theorem mergeSkillStep_new (t : ℚ) (m : List (String × Skill)) (s : Skill)
    (hmk : matchedSkillKey t m s = none) :
    mergeSkillStep t m s = dictInsert m (normSkillKey s) ⟨s.name, s.category, 1, s.confidence⟩ := by
  unfold mergeSkillStep
  rw [hmk]

theorem step_keys_nodup (t : ℚ) (m : List (String × Skill)) (s : Skill)
    (hnd : (dictKeys m).Nodup) : (dictKeys (mergeSkillStep t m s)).Nodup := by
  cases hmk : matchedSkillKey t m s with
  | some k =>
    cases hlk : dictLookup m k with
    | some d =>
      rw [mergeSkillStep_matched t m s k d hmk hlk]
      exact dictKeys_nodup_dictInsert _ _ _ hnd
    | none =>
      exfalso
      have hmem := matchedSkillKey_mem t m s k hmk
      have := dictLookup_isSome_of_mem_keys m k hmem
      rw [hlk] at this
      simp at this
  | none =>
    rw [mergeSkillStep_new t m s hmk]
    exact dictKeys_nodup_dictInsert _ _ _ hnd

theorem step_lookup_ne (t : ℚ) (m : List (String × Skill)) (s : Skill) (x : String)
    (hx : assignedSkillKey t m s ≠ x) :
    dictLookup (mergeSkillStep t m s) x = dictLookup m x := by
  cases hmk : matchedSkillKey t m s with
  | some k =>
    have hk : assignedSkillKey t m s = k := assignedSkillKey_of_matched t m s k hmk
    cases hlk : dictLookup m k with
    | some d =>
      rw [mergeSkillStep_matched t m s k d hmk hlk]
      refine dictLookup_dictInsert_ne _ _ _ _ ?_
      rw [← hk]
      exact fun hh => hx hh.symm
    | none =>
      exfalso
      have hmem := matchedSkillKey_mem t m s k hmk
      have := dictLookup_isSome_of_mem_keys m k hmem
      rw [hlk] at this
      simp at this
  | none =>
    have hk : assignedSkillKey t m s = normSkillKey s := assignedSkillKey_of_new t m s hmk
    rw [mergeSkillStep_new t m s hmk]
    refine dictLookup_dictInsert_ne _ _ _ _ ?_
    rw [← hk]
    exact fun hh => hx hh.symm

theorem traceCount_cons_eq (t : ℚ) (m : List (String × Skill)) (s : Skill)
    (rest : List Skill) (k : String) (h : assignedSkillKey t m s = k) :
    traceCount t m (s :: rest) k = traceCount t (mergeSkillStep t m s) rest k + 1 := by
  simp [traceCount, skillTrace, List.filter_cons, h]

theorem traceCount_cons_ne (t : ℚ) (m : List (String × Skill)) (s : Skill)
    (rest : List Skill) (k : String) (h : assignedSkillKey t m s ≠ k) :
    traceCount t m (s :: rest) k = traceCount t (mergeSkillStep t m s) rest k := by
  simp [traceCount, skillTrace, List.filter_cons, h]

theorem traceConfs_cons_eq (t : ℚ) (m : List (String × Skill)) (s : Skill)
    (rest : List Skill) (k : String) (h : assignedSkillKey t m s = k) :
    traceConfs t m (s :: rest) k = s.confidence :: traceConfs t (mergeSkillStep t m s) rest k := by
  simp [traceConfs, skillTrace, List.filter_cons, h]

theorem traceConfs_cons_ne (t : ℚ) (m : List (String × Skill)) (s : Skill)
    (rest : List Skill) (k : String) (h : assignedSkillKey t m s ≠ k) :
    traceConfs t m (s :: rest) k = traceConfs t (mergeSkillStep t m s) rest k := by
  simp [traceConfs, skillTrace, List.filter_cons, h]

theorem skillFold_spec (t : ℚ) (ht : t ≤ 100) (l : List Skill) :
    ∀ m : List (String × Skill), (dictKeys m).Nodup →
    ∀ p ∈ skillFold t m l,
      (∀ d₀, dictLookup m p.1 = some d₀ →
        p.2.frequency = d₀.frequency + (traceCount t m l p.1 : Int) ∧
        p.2.confidence = (traceConfs t m l p.1).foldl max d₀.confidence) ∧
      (dictLookup m p.1 = none →
        p.2.frequency = (traceCount t m l p.1 : Int) ∧
        (traceConfs t m l p.1).max? = some p.2.confidence) := by
  induction l with
  | nil =>
    intro m hnd p hp
    have hl := dictLookup_of_mem m p hp hnd
    constructor
    · intro d₀ hd
      rw [hl] at hd
      injection hd with hd
      subst hd
      simp [traceCount, traceConfs, skillTrace]
    · intro hnone
      rw [hl] at hnone
      cases hnone
  | cons s rest ih =>
    intro m hnd p hp
    have hp' : p ∈ skillFold t (mergeSkillStep t m s) rest := hp
    have hnd' := step_keys_nodup t m s hnd
    have IH := ih (mergeSkillStep t m s) hnd' p hp'
    by_cases hkp : assignedSkillKey t m s = p.1
    · cases hmk : matchedSkillKey t m s with
      | some k =>
        have hak : assignedSkillKey t m s = k := assignedSkillKey_of_matched t m s k hmk
        have hkp' : k = p.1 := by rw [← hak, hkp]
        cases hlk : dictLookup m k with
        | none =>
          exfalso
          have hmem := matchedSkillKey_mem t m s k hmk
          have hsome := dictLookup_isSome_of_mem_keys m k hmem
          rw [hlk] at hsome
          simp at hsome
        | some d₀ =>
          have hm' := mergeSkillStep_matched t m s k d₀ hmk hlk
          have hlk' : dictLookup (mergeSkillStep t m s) p.1 =
              some ⟨d₀.name, d₀.category, d₀.frequency + 1, max d₀.confidence s.confidence⟩ := by
            rw [hm', ← hkp']
            exact dictLookup_dictInsert_self _ _ _
          have hIH := IH.1 _ hlk'
          constructor
          · intro d₁ hd₁
            rw [← hkp', hlk] at hd₁
            injection hd₁ with hd₁
            subst hd₁
            constructor
            · rw [traceCount_cons_eq t m s rest p.1 hkp]
              simp only [hIH.1]
              push_cast
              ring
            · rw [traceConfs_cons_eq t m s rest p.1 hkp]
              simp only [hIH.2]
              rw [List.foldl_cons]
          · intro hnone
            rw [← hkp', hlk] at hnone
            cases hnone
      | none =>
        have hak : assignedSkillKey t m s = normSkillKey s := assignedSkillKey_of_new t m s hmk
        have hnmem := matchedSkillKey_none_not_mem t m s ht hmk
        have hm' := mergeSkillStep_new t m s hmk
        have hlk' : dictLookup (mergeSkillStep t m s) p.1 =
            some ⟨s.name, s.category, 1, s.confidence⟩ := by
          rw [hm', ← hkp, hak]
          exact dictLookup_dictInsert_self _ _ _
        have hIH := IH.1 _ hlk'
        have hlnone : dictLookup m p.1 = none := by
          rw [← hkp, hak]
          exact dictLookup_eq_none m _ hnmem
        constructor
        · intro d₀ hd₀
          rw [hlnone] at hd₀
          cases hd₀
        · intro _
          constructor
          · rw [traceCount_cons_eq t m s rest p.1 hkp]
            simp only [hIH.1]
            push_cast
            ring
          · rw [traceConfs_cons_eq t m s rest p.1 hkp]
            rw [show (s.confidence :: traceConfs t (mergeSkillStep t m s) rest p.1).max? =
              some ((traceConfs t (mergeSkillStep t m s) rest p.1).foldl max s.confidence) from rfl]
            rw [← hIH.2]
    · have hlookup := step_lookup_ne t m s p.1 hkp
      rw [show traceCount t m (s :: rest) p.1 = traceCount t (mergeSkillStep t m s) rest p.1 from
        traceCount_cons_ne t m s rest p.1 hkp]
      rw [show traceConfs t m (s :: rest) p.1 = traceConfs t (mergeSkillStep t m s) rest p.1 from
        traceConfs_cons_ne t m s rest p.1 hkp]
      rw [← hlookup]
      exact IH

/-! ### Lemmas: the lexicographic comparison and the stable sort -/

theorem chLtB_nil_right (a : Chars) : chLtB a [] = false := by
  cases a <;> simp [chLtB]

theorem chLtB_asymm (a b : Chars) (h : chLtB a b = true) : chLtB b a = false := by
  induction a generalizing b with
  | nil =>
    cases b with
    | nil => simp [chLtB] at h
    | cons y ys => exact chLtB_nil_right _
  | cons x xs ih =>
    cases b with
    | nil => simp [chLtB] at h
    | cons y ys =>
      by_cases h1 : x < y
      · have h2 : ¬y < x := fun hh => absurd h1 (lt_asymm hh)
        simp [chLtB, h1, h2]
      · by_cases h2 : y < x
        · simp [chLtB, h1, h2] at h
        · have hh : chLtB (x :: xs) (y :: ys) = chLtB xs ys := by simp [chLtB, h1, h2]
          have hg : chLtB (y :: ys) (x :: xs) = chLtB ys xs := by simp [chLtB, h1, h2]
          rw [hh] at h
          rw [hg]
          exact ih ys h

theorem chLtB_trans (a b c : Chars) (hab : chLtB a b = true) (hbc : chLtB b c = true) :
    chLtB a c = true := by
  induction a generalizing b c with
  | nil =>
    cases c with
    | nil =>
      cases b with
      | nil => exact hab
      | cons y ys => simp [chLtB] at hbc
    | cons z zs => simp [chLtB]
  | cons x xs ih =>
    cases b with
    | nil => simp [chLtB] at hab
    | cons y ys =>
      cases c with
      | nil => simp [chLtB] at hbc
      | cons z zs =>
        rcases lt_trichotomy x y with h1 | h1 | h1
        · rcases lt_trichotomy y z with h2 | h2 | h2
          · have : x < z := lt_trans h1 h2
            simp [chLtB, this]
          · subst h2
            simp [chLtB, h1]
          · -- y > z contradicts hbc unless…
            have : ¬y < z := fun hh => absurd h2 (lt_asymm hh)
            simp [chLtB, this, h2] at hbc
        · subst h1
          rcases lt_trichotomy x z with h2 | h2 | h2
          · simp [chLtB, h2]
          · subst h2
            -- x = y = z: tails
            have hne : ¬x < x := lt_irrefl x
            have hab' : chLtB xs ys = true := by simpa [chLtB, hne] using hab
            have hbc' : chLtB ys zs = true := by simpa [chLtB, hne] using hbc
            simp [chLtB, hne]
            exact ih ys zs hab' hbc'
          · -- z < x = y contradicts hbc
            have : ¬x < z := fun hh => absurd h2 (lt_asymm hh)
            simp [chLtB, this, h2] at hbc
        · -- y < x contradicts hab
          have : ¬x < y := fun hh => absurd h1 (lt_asymm hh)
          simp [chLtB, this, h1] at hab

theorem chLtB_trichotomy (a b : Chars) : chLtB a b = true ∨ chLtB b a = true ∨ a = b := by
  induction a generalizing b with
  | nil =>
    cases b with
    | nil => right; right; rfl
    | cons y ys => left; simp [chLtB]
  | cons x xs ih =>
    cases b with
    | nil => right; left; simp [chLtB]
    | cons y ys =>
      rcases lt_trichotomy x y with h | h | h
      · left; simp [chLtB, h]
      · subst h
        have hne : ¬x < x := lt_irrefl x
        rcases ih ys with h2 | h2 | h2
        · left; simp [chLtB, hne, h2]
        · right; left; simp [chLtB, hne, h2]
        · right; right; rw [h2]
      · right; left; simp [chLtB, h]

theorem chLtB_false_trans (a b c : Chars) (hba : chLtB b a = false) (hcb : chLtB c b = false) :
    chLtB c a = false := by
  by_contra hca
  rw [Bool.not_eq_false] at hca
  rcases chLtB_trichotomy b a with h | h | h
  · rw [h] at hba
    cases hba
  · -- a < b, and c < a, so c < b: contradiction with hcb
    have := chLtB_trans c a b hca h
    rw [this] at hcb
    cases hcb
  · subst h
    rw [hca] at hcb
    cases hcb

theorem keyGtB_asymm (p q : Bool × String) (h : keyGtB p q = true) : keyGtB q p = false := by
  obtain ⟨pb, ps⟩ := p
  obtain ⟨qb, qs⟩ := q
  cases pb <;> cases qb <;> simp_all [keyGtB]
  · exact chLtB_asymm _ _ h
  · exact chLtB_asymm _ _ h

theorem keyGtB_false_trans (p q r : Bool × String) (hqp : keyGtB q p = false)
    (hrq : keyGtB r q = false) : keyGtB r p = false := by
  obtain ⟨pb, ps⟩ := p
  obtain ⟨qb, qs⟩ := q
  obtain ⟨rb, rs⟩ := r
  cases pb <;> cases qb <;> cases rb <;> simp_all [keyGtB]
  · exact chLtB_false_trans _ _ _ hrq hqp
  · exact chLtB_false_trans _ _ _ hrq hqp

theorem insertByGt_perm {α : Type} (gt : α → α → Bool) (a : α) (l : List α) :
    (insertByGt gt a l).Perm (a :: l) := by
  induction l with
  | nil => exact List.Perm.refl _
  | cons b bs ih =>
    by_cases h : gt b a
    · simp only [insertByGt, h, if_true]
      exact (ih.cons b).trans (List.Perm.swap a b bs)
    · simp only [insertByGt, h, if_false]
      exact List.Perm.refl _

theorem sortByGt_perm {α : Type} (gt : α → α → Bool) (l : List α) :
    (sortByGt gt l).Perm l := by
  induction l with
  | nil => exact List.Perm.refl _
  | cons a as ih =>
    show (insertByGt gt a (sortByGt gt as)).Perm (a :: as)
    exact (insertByGt_perm gt a _).trans (ih.cons a)

theorem insertByGt_pairwise {α : Type} (gt : α → α → Bool)
    (hasym : ∀ x y, gt x y = true → gt y x = false)
    (htrans : ∀ x y z, gt y x = false → gt z y = false → gt z x = false)
    (a : α) (l : List α) (hl : l.Pairwise (fun x y => gt y x = false)) :
    (insertByGt gt a l).Pairwise (fun x y => gt y x = false) := by
  induction l with
  | nil => simp [insertByGt]
  | cons b bs ih =>
    rcases List.pairwise_cons.mp hl with ⟨hb, hbs⟩
    by_cases h : gt b a
    · simp only [insertByGt, h, if_true]
      refine List.pairwise_cons.mpr ⟨?_, ih hbs⟩
      intro x hx
      rcases List.mem_cons.mp (((insertByGt_perm gt a bs).mem_iff).mp hx) with hxa | hxbs
      · rw [hxa]
        exact hasym b a h
      · exact hb x hxbs
    · simp only [insertByGt, h, if_false]
      refine List.pairwise_cons.mpr ⟨?_, hl⟩
      intro x hx
      rcases List.mem_cons.mp hx with hxb | hxbs
      · rw [hxb]
        exact Bool.not_eq_true _ |>.mp h
      · exact htrans a b x (Bool.not_eq_true _ |>.mp h) (hb x hxbs)

theorem sortByGt_pairwise {α : Type} (gt : α → α → Bool)
    (hasym : ∀ x y, gt x y = true → gt y x = false)
    (htrans : ∀ x y z, gt y x = false → gt z y = false → gt z x = false)
    (l : List α) :
    (sortByGt gt l).Pairwise (fun x y => gt y x = false) := by
  induction l with
  | nil => simp [sortByGt]
  | cons a as ih =>
    show (insertByGt gt a (sortByGt gt as)).Pairwise _
    exact insertByGt_pairwise gt hasym htrans a _ ih

/-! ### Lemmas: first-occurrence dedup of experience entries -/

theorem dedupExpAux_spec (l : List Experience) :
    ∀ seen : List String,
      (dedupExpAux l seen).Sublist l ∧
      (∀ e ∈ dedupExpAux l seen, expSignature e ∉ seen) ∧
      ((dedupExpAux l seen).map expSignature).Nodup ∧
      (∀ e ∈ l, expSignature e ∈ seen ∨
        ∃ e', e' ∈ dedupExpAux l seen ∧ expSignature e' = expSignature e) ∧
      (∀ e' ∈ dedupExpAux l seen, ∃ l₁ l₂, l = l₁ ++ e' :: l₂ ∧
        ∀ x ∈ l₁, expSignature x ≠ expSignature e') := by
  induction l with
  | nil =>
    intro seen
    refine ⟨List.Sublist.refl _, ?_, ?_, ?_, ?_⟩ <;> simp [dedupExpAux]
  | cons e es ih =>
    intro seen
    by_cases hs : expSignature e ∈ seen
    · have hd : dedupExpAux (e :: es) seen = dedupExpAux es seen := by
        simp [dedupExpAux, hs]
      obtain ⟨ih1, ih2, ih3, ih4, ih5⟩ := ih seen
      rw [hd]
      refine ⟨ih1.cons e, ih2, ih3, ?_, ?_⟩
      · intro e₀ he₀
        rcases List.mem_cons.mp he₀ with rfl | he₀
        · exact Or.inl hs
        · exact ih4 e₀ he₀
      · intro e' he'
        obtain ⟨l₁, l₂, hsplit, hfst⟩ := ih5 e' he'
        refine ⟨e :: l₁, l₂, by rw [hsplit, List.cons_append], ?_⟩
        intro x hx
        rcases List.mem_cons.mp hx with rfl | hx
        · intro hc
          exact ih2 e' he' (hc ▸ hs)
        · exact hfst x hx
    · have hd : dedupExpAux (e :: es) seen = e :: dedupExpAux es (expSignature e :: seen) := by
        simp [dedupExpAux, hs]
      obtain ⟨ih1, ih2, ih3, ih4, ih5⟩ := ih (expSignature e :: seen)
      rw [hd]
      refine ⟨ih1.cons₂ e, ?_, ?_, ?_, ?_⟩
      · intro x hx
        rcases List.mem_cons.mp hx with rfl | hx
        · exact hs
        · exact fun hc => ih2 x hx (List.mem_cons_of_mem _ hc)
      · refine List.nodup_cons.mpr ⟨?_, ih3⟩
        intro hc
        obtain ⟨x, hx, hxe⟩ := List.mem_map.mp hc
        exact ih2 x hx (by rw [hxe]; exact List.mem_cons_self _ _)
      · intro e₀ he₀
        rcases List.mem_cons.mp he₀ with rfl | he₀
        · exact Or.inr ⟨e₀, List.mem_cons_self _ _, rfl⟩
        · rcases ih4 e₀ he₀ with hin | ⟨e', he', hsig⟩
          · rcases List.mem_cons.mp hin with heq | hin
            · exact Or.inr ⟨e, List.mem_cons_self _ _, heq.symm⟩
            · exact Or.inl hin
          · exact Or.inr ⟨e', List.mem_cons_of_mem _ he', hsig⟩
      · intro e' he'
        rcases List.mem_cons.mp he' with rfl | he'
        · exact ⟨[], es, rfl, by simp⟩
        · obtain ⟨l₁, l₂, hsplit, hfst⟩ := ih5 e' he'
          refine ⟨e :: l₁, l₂, by rw [hsplit, List.cons_append], ?_⟩
          intro x hx
          rcases List.mem_cons.mp hx with rfl | hx
          · intro hc
            exact ih2 e' he' (by rw [← hc]; exact List.mem_cons_self _ _)
          · exact hfst x hx

/-! ### Lemmas: the project merger (key order and the store frame) -/

theorem matchedProjKey_none_not_mem (t : ℚ) (st : ProjState) (p : Project)
    (ht : t ≤ 100) (h : matchedProjKey t st p = none) : normProjKey p ∉ dictKeys st.pmap := by
  unfold matchedProjKey at h
  cases hm : st.pmap.isEmpty with
  | true =>
    rw [List.isEmpty_iff] at hm
    rw [hm]
    simp [dictKeys]
  | false =>
    rw [hm] at h
    simp only [Bool.false_eq_true, if_false] at h
    cases he : extractOne (normProjKey p) (dictKeys st.pmap) t with
    | none => exact extractOne_none_not_mem _ _ _ ht he
    | some q => rw [he] at h; simp at h

theorem listSet_getD_ne {α : Type} (l : List α) (i j : Nat) (a d : α) (h : j ≠ i) :
    (l.set i a).getD j d = l.getD j d := by
  induction l generalizing i j with
  | nil => rfl
  | cons x xs ih =>
    cases i with
    | zero =>
      cases j with
      | zero => exact absurd rfl h
      | succ j => rfl
    | succ i =>
      cases j with
      | zero => rfl
      | succ j => exact ih i j (fun hh => h (by rw [hh]))

theorem mergeProjStep_pmap (t : ℚ) (st : ProjState) (r : Nat) :
    (mergeProjStep t st r).pmap = st.pmap ∨
    (matchedProjKey t st (st.store.getD r default) = none ∧
      (mergeProjStep t st r).pmap =
        dictInsert st.pmap (normProjKey (st.store.getD r default)) r) := by
  unfold mergeProjStep
  split
  · split
    · left; rfl
    · left; rfl
  · rename_i hmk
    right
    exact ⟨hmk, rfl⟩

theorem mergeProjStep_store (t : ℚ) (st : ProjState) (r : Nat) :
    ((mergeProjStep t st r).store = st.store) ∨
    ((mergeProjStep t st r).pmap = st.pmap ∧
      ∃ er, er ∈ dictValues st.pmap ∧
        ∀ x, x ≠ er → (mergeProjStep t st r).store.getD x default = st.store.getD x default) := by
  unfold mergeProjStep
  split
  · split
    · rename_i er hlk
      right
      refine ⟨rfl, er, ?_, ?_⟩
      · show er ∈ st.pmap.map (·.2)
        exact List.mem_map_of_mem _ (dictLookup_mem _ _ _ hlk)
      · intro x hx
        show (st.store.set er _).getD x default = st.store.getD x default
        exact listSet_getD_ne _ _ _ _ _ hx
    · left; rfl
  · left; rfl

theorem mergeProjStep_values (t : ℚ) (st : ProjState) (r : Nat) (ht : t ≤ 100) :
    ∀ v ∈ dictValues st.pmap, v ∈ dictValues (mergeProjStep t st r).pmap := by
  intro v hv
  rcases mergeProjStep_pmap t st r with h | ⟨hmk, h⟩
  · rw [h]
    exact hv
  · rw [h, dictInsert_append _ _ _ (matchedProjKey_none_not_mem t st _ ht hmk)]
    show v ∈ (st.pmap ++ [(normProjKey (st.store.getD r default), r)]).map (·.2)
    rw [List.map_append]
    exact List.mem_append_left _ hv

theorem projFold_values_mono (t : ℚ) (rs : List Nat) (ht : t ≤ 100) :
    ∀ st : ProjState, ∀ v ∈ dictValues st.pmap, v ∈ dictValues (projFold t st rs).pmap := by
  induction rs with
  | nil => intro st v hv; exact hv
  | cons r rs ih =>
    intro st v hv
    exact ih (mergeProjStep t st r) v (mergeProjStep_values t st r ht v hv)

theorem projFold_keys_append (t : ℚ) (rs : List Nat) :
    ∀ st : ProjState, ∃ tail,
      dictKeys (projFold t st rs).pmap = dictKeys st.pmap ++ tail := by
  induction rs with
  | nil => intro st; exact ⟨[], by simp [projFold]⟩
  | cons r rs ih =>
    intro st
    obtain ⟨tail, htail⟩ := ih (mergeProjStep t st r)
    rcases mergeProjStep_pmap t st r with h | ⟨hmk, h⟩
    · rw [h] at htail
      exact ⟨tail, htail⟩
    · by_cases hmem : normProjKey (st.store.getD r default) ∈ dictKeys st.pmap
      · rw [h, dictKeys_dictInsert_mem _ _ _ hmem] at htail
        exact ⟨tail, htail⟩
      · rw [h, dictInsert_append _ _ _ hmem] at htail
        refine ⟨normProjKey (st.store.getD r default) :: tail, ?_⟩
        show dictKeys (projFold t (mergeProjStep t st r) rs).pmap = _
        rw [htail]
        simp [dictKeys]

theorem projFold_store_frame (t : ℚ) (ht : t ≤ 100) (rs : List Nat) :
    ∀ (st : ProjState) (x : Nat), x ∉ dictValues (projFold t st rs).pmap →
      (projFold t st rs).store.getD x default = st.store.getD x default := by
  induction rs with
  | nil => intro st x _; rfl
  | cons r rs ih =>
    intro st x hx
    have h2 := ih (mergeProjStep t st r) x hx
    rw [show projFold t st (r :: rs) = projFold t (mergeProjStep t st r) rs from rfl, h2]
    rcases mergeProjStep_store t st r with h | ⟨hpm, er, her, hset⟩
    · rw [h]
    · apply hset
      intro hxe
      subst hxe
      apply hx
      have her' : x ∈ dictValues (mergeProjStep t st r).pmap := by
        rw [hpm]
        exact her
      exact projFold_values_mono t rs ht (mergeProjStep t st r) x her'

/-! ### Lemmas: list maximum -/

theorem foldl_max_le_all {α : Type} [LinearOrder α] (l : List α) :
    ∀ a : α, a ≤ l.foldl max a ∧ ∀ x ∈ l, x ≤ l.foldl max a := by
  induction l with
  | nil => intro a; exact ⟨le_refl a, by simp⟩
  | cons b bs ih =>
    intro a
    have h := ih (max a b)
    constructor
    · exact le_trans (le_max_left a b) h.1
    · intro x hx
      rcases List.mem_cons.mp hx with rfl | hx
      · exact le_trans (le_max_right a _) h.1
      · exact h.2 x hx

theorem max?_ge_mem {α : Type} [LinearOrder α] (l : List α) (m : α)
    (h : l.max? = some m) : ∀ x ∈ l, x ≤ m := by
  cases l with
  | nil => simp at h
  | cons a as =>
    have hm : m = as.foldl max a := by
      have : (a :: as).max? = some (as.foldl max a) := rfl
      rw [this] at h
      injection h with h
      exact h.symm
    subst hm
    intro x hx
    rcases List.mem_cons.mp hx with rfl | hx
    · exact (foldl_max_le_all as x).1
    · exact (foldl_max_le_all as a).2 x hx

/-! ### Claim theorems -/

/-- C1 (counterexample): two experience entries whose lower-cased
(company, title, start_date) tuples coincide do NOT collapse into one
entry — the code's signature keeps the start_date verbatim, so
"2020-JAN" and "2020-jan" stay distinct and both entries survive. -/
theorem c1_counterexample :
    specExpTuple ⟨"T", "A", none, some "2020-JAN", none, false, [], []⟩ =
      specExpTuple ⟨"T", "A", none, some "2020-jan", none, false, [], []⟩ ∧
    (mergeExperience [[⟨"T", "A", none, some "2020-JAN", none, false, [], []⟩,
        ⟨"T", "A", none, some "2020-jan", none, false, [], []⟩]]).length = 2 := by
  exact ⟨by decide, by decide⟩

/-- C1 (amended): experience entries collapse exactly by equality of the
signature string `company.lower() + "_" + title.lower() + "_" +
(start_date or "")` (start_date taken verbatim, fields joined by `_`);
the retained entry is the first occurrence with all its fields verbatim
(it is literally an element of the input, the first one carrying its
signature), entries with distinct signatures are all kept, and the final
list is a permutation (reordering only) of those first occurrences. -/
theorem c1_exp_dedup_by_signature (expLists : List (List Experience)) :
    (mergeExperience expLists).Perm (dedupExpAux expLists.flatten []) ∧
    (dedupExpAux expLists.flatten []).Sublist expLists.flatten ∧
    ((dedupExpAux expLists.flatten []).map expSignature).Nodup ∧
    (∀ e ∈ expLists.flatten, ∃ e', e' ∈ dedupExpAux expLists.flatten [] ∧
      expSignature e' = expSignature e) ∧
    (∀ e' ∈ dedupExpAux expLists.flatten [], ∃ l₁ l₂,
      expLists.flatten = l₁ ++ e' :: l₂ ∧ ∀ x ∈ l₁, expSignature x ≠ expSignature e') := by
  obtain ⟨h1, _, h3, h4, h5⟩ := dedupExpAux_spec expLists.flatten []
  refine ⟨sortByGt_perm _ _, h1, h3, ?_, h5⟩
  intro e he
  rcases h4 e he with hin | h
  · simp at hin
  · exact h

/-- C6 (counterexample): an entry whose start_date is the EMPTY string is
also keyed as "0000" by the code (Python `or` treats "" as falsy), so the
output is not descending by the claimed key (raw string, only a missing
start_date replaced): the first output entry has claimed key (false, "")
yet precedes the second with strictly greater claimed key (false, "0000"). -/
theorem c6_counterexample :
    mergeExperience [[⟨"T1", "A", none, some "", none, false, [], []⟩,
        ⟨"T2", "B", none, none, none, false, [], []⟩]] =
      [⟨"T1", "A", none, some "", none, false, [], []⟩,
        ⟨"T2", "B", none, none, none, false, [], []⟩] ∧
    keyGtB (specExpKey ⟨"T2", "B", none, none, none, false, [], []⟩)
      (specExpKey ⟨"T1", "A", none, some "", none, false, [], []⟩) = true := by
  exact ⟨by decide, by decide⟩

/-- C6 (amended): the merged experience list is sorted descending by the
key (current, start_date or "0000") — current entries first, then raw
code-point string comparison — where a missing OR empty start_date is
replaced by "0000"; the list is a permutation of the deduplicated
entries. -/
theorem c6_exp_sorted (expLists : List (List Experience)) :
    (mergeExperience expLists).Pairwise (fun a b => expGtB b a = false) ∧
    (mergeExperience expLists).Perm (dedupExpAux expLists.flatten []) := by
  constructor
  · refine sortByGt_pairwise expGtB ?_ ?_ _
    · intro x y h
      exact keyGtB_asymm _ _ h
    · intro x y z h1 h2
      exact keyGtB_false_trans _ _ _ h1 h2
  · exact sortByGt_perm _ _

/-- C5 (counterexample): with max_skills = 0 the truncation guard
`if settings.max_skills and …` is falsy, so no truncation happens and the
merged skill list is longer than max_skills. -/
theorem c5_counterexample :
    ¬ (((merge
        [⟨⟨none, none, none, none, none, none, none⟩, none,
            [⟨"Python", some "programming", 1, mkRat 9 10⟩], [], [], [], [], []⟩,
          ⟨⟨none, none, none, none, none, none, none⟩, none,
            [⟨"Vue", some "frontend", 1, mkRat 9 10⟩], [], [], [], [], []⟩]
        ⟨["personal_info", "skills", "experience", "education", "projects"],
          0, "date", 85⟩).skills.length : Int) ≤
      (⟨["personal_info", "skills", "experience", "education", "projects"],
          0, "date", 85⟩ : MergeSettings).max_skills) := by
  decide

/-- C5 (amended): when max_skills is positive (the guard
`if settings.max_skills` is truthy), the merged skill list is exactly the
fully deduplicated and ranked list truncated to max_skills — so
truncation happens only after dedup and ranking — and its length is
bounded by max_skills. -/
theorem c5_max_skills_truncation (resumes : List ParsedResume) (settings : MergeSettings)
    (hpos : 0 < settings.max_skills) :
    (merge resumes settings).skills =
      (mergeSkills (settings.deduplicate_threshold : ℚ) (resumes.map (·.skills))).take
        settings.max_skills.toNat ∧
    (merge resumes settings).skills.length ≤ settings.max_skills.toNat := by
  have hskills : (merge resumes settings).skills =
      (if settings.max_skills ≠ 0 ∧ settings.max_skills <
          ((mergeSkills (settings.deduplicate_threshold : ℚ) (resumes.map (·.skills))).length : Int)
        then pySliceTo settings.max_skills
          (mergeSkills (settings.deduplicate_threshold : ℚ) (resumes.map (·.skills)))
        else mergeSkills (settings.deduplicate_threshold : ℚ) (resumes.map (·.skills))) := rfl
  set skills0 := mergeSkills (settings.deduplicate_threshold : ℚ) (resumes.map (·.skills)) with hsk
  by_cases hc : settings.max_skills ≠ 0 ∧ settings.max_skills < (skills0.length : Int)
  · rw [hskills, if_pos hc]
    have htake : pySliceTo settings.max_skills skills0 = skills0.take settings.max_skills.toNat := by
      unfold pySliceTo
      rw [if_pos (le_of_lt hpos)]
    constructor
    · exact htake
    · rw [htake, List.length_take]
      exact min_le_left _ _
  · rw [hskills, if_neg hc]
    have hlen : skills0.length ≤ settings.max_skills.toNat := by
      rcases not_and_or.mp hc with h | h
      · exact absurd (by omega : settings.max_skills ≠ 0) (by simpa using h)
      · have := not_lt.mp h
        omega
    constructor
    · exact (List.take_of_length_le hlen).symm
    · exact hlen

/-- Witness for the amended C5 theorem at a concrete input. -/
theorem c5_max_skills_truncation_witness :
    (0 : Int) < (⟨[], 3, "date", 85⟩ : MergeSettings).max_skills ∧
    ((merge [] (⟨[], 3, "date", 85⟩ : MergeSettings)).skills =
      (mergeSkills (((⟨[], 3, "date", 85⟩ : MergeSettings).deduplicate_threshold : Int) : ℚ)
        (([] : List ParsedResume).map (·.skills))).take
        (⟨[], 3, "date", 85⟩ : MergeSettings).max_skills.toNat ∧
    (merge [] (⟨[], 3, "date", 85⟩ : MergeSettings)).skills.length ≤
      (⟨[], 3, "date", 85⟩ : MergeSettings).max_skills.toNat) :=
  ⟨by decide, c5_max_skills_truncation [] ⟨[], 3, "date", 85⟩ (by decide)⟩

/-- C3: in the merged skill map, every aggregate's frequency equals the
number of input mentions (pre-dedup) whose run-time canonical key is its
key — independent of the frequency values the mentions carry — and its
confidence is the maximum (hence an upper bound, never an average) of
the contributing mentions' confidences; the final merged list is a
permutation (ranking only) of those aggregates.  The threshold bound is
the documented MergeSettings range (0–100). -/
theorem c3_skill_frequency_confidence (t : ℚ) (lists : List (List Skill)) (ht : t ≤ 100) :
    ((mergeSkills t lists).Perm (dictValues (mergeSkillsMap t lists))) ∧
    ∀ p ∈ mergeSkillsMap t lists,
      p.2.frequency = (traceCount t [] lists.flatten p.1 : Int) ∧
      (traceConfs t [] lists.flatten p.1).max? = some p.2.confidence ∧
      ∀ q ∈ skillTrace t [] lists.flatten, q.1 = p.1 → q.2.confidence ≤ p.2.confidence := by
  constructor
  · exact sortByGt_perm _ _
  · intro p hp
    have h := skillFold_spec t ht lists.flatten [] (by simp [dictKeys]) p hp
    have h2 := h.2 (by simp [dictLookup])
    refine ⟨h2.1, h2.2, ?_⟩
    intro q hq hqk
    have hmemf : q ∈ (skillTrace t [] lists.flatten).filter (fun x => x.1 == p.1) :=
      List.mem_filter.mpr ⟨hq, by simp [hqk]⟩
    have hmem : q.2.confidence ∈ traceConfs t [] lists.flatten p.1 :=
      List.mem_map_of_mem _ hmemf
    exact max?_ge_mem _ _ h2.2 _ hmem

/-- Witness for C3 at a concrete input: one "Python" mention merges into
the aggregate keyed "python" with frequency 1. -/
theorem c3_skill_frequency_confidence_witness :
    (mergeSkills 85 [[⟨"Python", some "programming", 1, mkRat 9 10⟩]]).Perm
      (dictValues (mergeSkillsMap 85 [[⟨"Python", some "programming", 1, mkRat 9 10⟩]])) ∧
    (⟨"Python", some "programming", 1, mkRat 9 10⟩ : Skill).frequency =
      (traceCount 85 [] [⟨"Python", some "programming", 1, mkRat 9 10⟩] "python" : Int) ∧
    (traceConfs 85 [] [⟨"Python", some "programming", 1, mkRat 9 10⟩] "python").max? =
      some (⟨"Python", some "programming", 1, mkRat 9 10⟩ : Skill).confidence :=
  ⟨(c3_skill_frequency_confidence 85 [[⟨"Python", some "programming", 1, mkRat 9 10⟩]]
      (by norm_num)).1,
   ((c3_skill_frequency_confidence 85 [[⟨"Python", some "programming", 1, mkRat 9 10⟩]]
      (by norm_num)).2
      ("python", ⟨"Python", some "programming", 1, mkRat 9 10⟩) (by decide)).1,
   ((c3_skill_frequency_confidence 85 [[⟨"Python", some "programming", 1, mkRat 9 10⟩]]
      (by norm_num)).2
      ("python", ⟨"Python", some "programming", 1, mkRat 9 10⟩) (by decide)).2.1⟩

/-- C4: the fuzzy dedup comparison is ≥, not >.  Feeding two skills
through the merger (with a threshold in the documented 0–100 range):
when the similarity score of the second name against the existing key
equals the threshold exactly, the two mentions fold into one aggregate;
when the score is one point below the threshold, two separate aggregates
result. -/
theorem c4_threshold_boundary (t : ℚ) (a b : Skill) (ht : t ≤ 100) :
    (fuzzScore (normSkillKey b) (normSkillKey a) = t →
      (mergeSkillsMap t [[a, b]]).length = 1) ∧
    (fuzzScore (normSkillKey b) (normSkillKey a) = t - 1 →
      (mergeSkillsMap t [[a, b]]).length = 2) := by
  have hm1 : mergeSkillStep t [] a =
      [(normSkillKey a, ⟨a.name, a.category, 1, a.confidence⟩)] := by
    rw [mergeSkillStep_new t [] a rfl]
    rfl
  have hmm : mergeSkillsMap t [[a, b]] =
      mergeSkillStep t (mergeSkillStep t [] a) b := rfl
  have hmatch : matchedSkillKey t
      [(normSkillKey a, (⟨a.name, a.category, 1, a.confidence⟩ : Skill))] b =
      if t ≤ fuzzScore (normSkillKey b) (normSkillKey a) then some (normSkillKey a)
      else none := by
    by_cases hc : t ≤ fuzzScore (normSkillKey b) (normSkillKey a)
    · simp [matchedSkillKey, extractOne, extractStep, dictKeys, hc]
    · simp [matchedSkillKey, extractOne, extractStep, dictKeys, hc]
  constructor
  · intro hsc
    have hc : t ≤ fuzzScore (normSkillKey b) (normSkillKey a) := le_of_eq hsc.symm
    rw [hmm, hm1]
    rw [mergeSkillStep_matched t _ b (normSkillKey a)
      ⟨a.name, a.category, 1, a.confidence⟩
      (by rw [hmatch, if_pos hc]) (by simp [dictLookup])]
    simp [dictInsert]
  · intro hsc
    have hc : ¬ t ≤ fuzzScore (normSkillKey b) (normSkillKey a) := by
      rw [hsc]
      intro hcon
      linarith
    have hne : normSkillKey a ≠ normSkillKey b := by
      intro h
      rw [h, fuzzScore_self] at hsc
      linarith
    rw [hmm, hm1]
    rw [mergeSkillStep_new t _ b (by rw [hmatch, if_neg hc])]
    simp [dictInsert, hne]

/-- Witness for C4: threshold 96.  The pair ("aaaaaaaaaaaa",
"aaaaaaaaaaaab") scores exactly 96 (LCS 12 of lengths 12+13) and folds
into one aggregate; the pair ("aaaaaaaaaaaaaaaaaaab",
"aaaaaaaaaaaaaaaaaaac") scores 95 = 96 - 1 (LCS 19 of lengths 20+20)
and yields two aggregates. -/
theorem c4_threshold_boundary_witness :
    (mergeSkillsMap 96 [[⟨"aaaaaaaaaaaa", none, 1, 1⟩,
        ⟨"aaaaaaaaaaaab", none, 1, 1⟩]]).length = 1 ∧
    (mergeSkillsMap 96 [[⟨"aaaaaaaaaaaaaaaaaaab", none, 1, 1⟩,
        ⟨"aaaaaaaaaaaaaaaaaaac", none, 1, 1⟩]]).length = 2 :=
  ⟨(c4_threshold_boundary 96 ⟨"aaaaaaaaaaaa", none, 1, 1⟩
      ⟨"aaaaaaaaaaaab", none, 1, 1⟩ (by norm_num)).1 (by decide),
   (c4_threshold_boundary 96 ⟨"aaaaaaaaaaaaaaaaaaab", none, 1, 1⟩
      ⟨"aaaaaaaaaaaaaaaaaaac", none, 1, 1⟩ (by norm_num)).2
      (by rw [show (96 : ℚ) - 1 = 95 by norm_num]; decide)⟩

/-- C7 (counterexample): merging two resumes whose similarly-named
projects fold together mutates the caller-owned first project in place —
after the merge call the stored object's description has become
"d1 | d2" instead of its original "d1". -/
theorem c7_counterexample :
    ((mergeFinalStore
        [⟨⟨none, none, none, none, none, none, none⟩, none, [], [], [],
            [⟨"Portfolio", "d1", [], none⟩], [], []⟩,
          ⟨⟨none, none, none, none, none, none, none⟩, none, [], [], [],
            [⟨"portfolio", "d2", [], none⟩], [], []⟩]
        ⟨["personal_info", "skills", "experience", "education", "projects"],
          30, "date", 85⟩).getD 0 default).description = "d1 | d2" ∧
    ("d1 | d2" : String) ≠ "d1" := by
  exact ⟨by decide, by decide⟩

/-- C7 (amended): the only caller-owned objects any merger mutates are
the retained first-occurrence projects that received a fold: every store
cell whose ref is not among the merged output refs is unchanged by the
project merger (threshold in the documented 0–100 range); all other
mergers read their inputs only. -/
theorem c7_store_frame (t : ℚ) (store : List Project) (projLists : List (List Nat))
    (ht : t ≤ 100) (x : Nat) (hx : x ∉ (mergeProjects t store projLists).2) :
    (mergeProjects t store projLists).1.getD x default = store.getD x default :=
  projFold_store_frame t ht projLists.flatten ⟨store, []⟩ x hx

/-- Witness for the amended C7 theorem: ref 1 folds into ref 0, ref 1 is
not among the output refs, and its cell is unchanged. -/
theorem c7_store_frame_witness :
    ((1 : Nat) ∉ (mergeProjects 85 [⟨"Portfolio", "d1", [], none⟩,
        ⟨"portfolio", "d2", [], none⟩] [[0], [1]]).2) ∧
    (mergeProjects 85 [⟨"Portfolio", "d1", [], none⟩,
        ⟨"portfolio", "d2", [], none⟩] [[0], [1]]).1.getD 1 default =
      [(⟨"Portfolio", "d1", [], none⟩ : Project),
        ⟨"portfolio", "d2", [], none⟩].getD 1 default :=
  ⟨by decide,
   c7_store_frame 85 [⟨"Portfolio", "d1", [], none⟩, ⟨"portfolio", "d2", [], none⟩]
     [[0], [1]] (by norm_num) 1 (by decide)⟩

/-- C10: the project map only ever appends canonical keys — processing
further projects never moves an existing aggregate's position (folding a
duplicate updates the store, not the key list) — and the merged output
is exactly the map's values in that first-insertion key order. -/
theorem c10_proj_first_seen_order (t : ℚ) (store : List Project)
    (projLists : List (List Nat)) (st : ProjState) (rs : List Nat) :
    (∃ tail, dictKeys (projFold t st rs).pmap = dictKeys st.pmap ++ tail) ∧
    (mergeProjects t store projLists).2 =
      dictValues (projFold t ⟨store, []⟩ projLists.flatten).pmap :=
  ⟨projFold_keys_append t rs st, rfl⟩

/-- C8: the merge endpoint rejects fewer than 2 resumes with a 400
validation error before any merging, and with 2 or more resumes it
always proceeds to the merge — it never fails on cardinality. -/
theorem c8_cardinality_guard (resumes : List ParsedResume) (settings : MergeSettings) :
    (resumes.length < 2 →
      mergeResumesEndpoint resumes settings =
        .validationError 400 "Need at least 2 resumes to merge") ∧
    (2 ≤ resumes.length →
      mergeResumesEndpoint resumes settings = .ok (merge resumes settings)) := by
  constructor
  · intro h
    simp [mergeResumesEndpoint, h]
  · intro h
    have hn : ¬ resumes.length < 2 := by omega
    simp [mergeResumesEndpoint, hn]

/-- Witness for C8: zero resumes are rejected, two empty resumes merge. -/
theorem c8_cardinality_guard_witness :
    mergeResumesEndpoint [] ⟨[], 30, "date", 85⟩ =
      .validationError 400 "Need at least 2 resumes to merge" ∧
    mergeResumesEndpoint
        [⟨⟨none, none, none, none, none, none, none⟩, none, [], [], [], [], [], []⟩,
          ⟨⟨none, none, none, none, none, none, none⟩, none, [], [], [], [], [], []⟩]
        ⟨[], 30, "date", 85⟩ =
      .ok (merge
        [⟨⟨none, none, none, none, none, none, none⟩, none, [], [], [], [], [], []⟩,
          ⟨⟨none, none, none, none, none, none, none⟩, none, [], [], [], [], [], []⟩]
        ⟨[], 30, "date", 85⟩) :=
  ⟨(c8_cardinality_guard [] ⟨[], 30, "date", 85⟩).1 (by decide),
   (c8_cardinality_guard
      [⟨⟨none, none, none, none, none, none, none⟩, none, [], [], [], [], [], []⟩,
        ⟨⟨none, none, none, none, none, none, none⟩, none, [], [], [], [], [], []⟩]
      ⟨[], 30, "date", 85⟩).2 (by decide)⟩

/-- C2: the phone field extractor never returns a phone number — the
pattern source (taken verbatim from parser.py line 14) is rejected by
Python's regex compiler with "nothing to repeat" (a `?` quantifier
directly after a `$` anchor, where `\(?`/`\)?` parentheses were clearly
intended), so `re.search` raises for every text, including one
containing 555-123-4567. -/
theorem c2_phone_pattern_rejected :
    (∀ text : String, extractPhone text = .error "nothing to repeat") ∧
    extractPhone "Call 555-123-4567 now" = .error "nothing to repeat" := by
  exact ⟨fun _ => rfl, rfl⟩

/-- C9: extraction from the empty document text raises rather than
returning an empty record — the broken phone pattern makes
`_parse_personal_info` raise `re.error` on every input — even though
every other extractor does return an empty result on empty input. -/
theorem c9_empty_text_extraction :
    parseResumeText "" = .error "nothing to repeat" ∧
    parseSkills "" = [] ∧
    parseExperience "" = [] ∧
    parseEducation "" = [] ∧
    parseProjects "" = [] := by
  exact ⟨rfl, rfl, rfl, rfl, rfl⟩
